import Mathlib

/-!
Verification of the ant_tracker ROI-detection scripts
(src/scripts/roidetect.py and src/scripts/bridgedetect.py), as a shallow
embedding of their pure computational content.

Modelling conventions:
* Pixel coordinates are pairs of integers.
* The source compares Euclidean distances through np.sqrt; since sqrt is
  strictly monotone on nonnegative reals, every comparison is embedded as
  the same comparison of squared distances (the distance bound 10000 of
  the `centers` loop becomes 10^8).
* Calls into external libraries (OpenCV, numpy, sknw, sklearn) are
  embedded by their documented behaviour at the call boundary; each such
  model carries a comment saying what is modelled.
* The scripts define no exception classes and contain no raise statement;
  fallible boundaries are embedded with `Except PyError`, where `PyError`
  enumerates both the exception kinds the underlying libraries actually
  throw and the error names the specification uses (the latter are never
  constructed by the embedded code).
-/

abbrev Point := Int × Int

/-- Squared Euclidean distance between two pixel coordinates.  The source
computes `np.sqrt(np.abs((r0 - p0)**2 + (r1 - p1)**2))`; the `abs` is a
no-op on a nonnegative sum of squares, and the square root is dropped per
the monotone-comparison convention above. -/
def sqdist (p q : Point) : Nat :=
  ((p.1 - q.1) ^ 2 + (p.2 - q.2) ^ 2).toNat

inductive PyError where
  | nameError
  | typeError
  | valueError
  | cvError
  | registrationError
  | topologyError
  | vertexExtractionError
  | transformError
deriving DecidableEq

/-! ## centers (roidetect.py lines 104-125) -/

/-- One entry of the list `newpoints` built by `centers`.  A matched
junction appends the chosen detected point `ps[index]`.  For an unmatched
junction the loop leaves `index = None`, and `ps[None]` on a numpy array
is newaxis indexing: it evaluates, without raising, to the whole detected
array with a leading axis added; that whole-array value is what gets
appended. -/
inductive Sel where
  | pt (p : Point)
  | whole (ps : List Point)
deriving DecidableEq

/-- Inner loop of `centers`: scan the detected points in order, keeping
the first point at strictly smallest distance, starting from the bound
`min_dist = 10000` (squared: `10^8`). -/
def selAux (r : Point) : List Point → Nat → Option Point → Option Point
  | [], _, best => best
  | p :: rest, minSq, best =>
    if sqdist r p < minSq then selAux r rest (sqdist r p) (some p)
    else selAux r rest minSq best

def selectClosest (r : Point) (ps : List Point) : Option Point :=
  selAux r ps 100000000 none

/-- roidetect.py lines 104-125: for each reference junction, append the
closest detected point (or, when none lies strictly within distance
10000, the numpy-newaxis value `ps[None]`). -/
def centers (reference ps : List Point) : List Sel :=
  reference.map fun r =>
    match selectClosest r ps with
    | some q => Sel.pt q
    | none => Sel.whole ps

/-! ## nodes (roidetect.py lines 80-102)

The skeletonization (skimage) and graph construction (sknw) are external;
the embedding starts from the built skeleton graph: node `i` carries a
neighbor list `adj[i]` and a representative coordinate `ocoords[i]` (the
sknw attribute named o).  A completely black mask skeletonizes to an
empty image, whose graph has no nodes (`adj = []`). -/

structure SkelGraph where
  adj : List (List Nat)
  ocoords : List Point

def degreeOf (g : SkelGraph) (i : Nat) : Nat :=
  (g.adj.getD i []).length

/-- The filtering loop of `nodes` (lines 94-99): iterate over every node
index; a node whose neighbor count in the ORIGINAL graph is below 3 is
removed from the copy.  Degrees are always read from the original graph,
never from the partially pruned copy. -/
def nodesKept (g : SkelGraph) : List Nat :=
  (List.range g.adj.length).foldl
    (fun ns i => if degreeOf g i < 3 then ns.filter (fun j => j != i) else ns)
    (List.range g.adj.length)

/-- roidetect.py lines 80-102: coordinates of the surviving nodes. -/
def nodes (g : SkelGraph) : List Point :=
  (nodesKept g).map fun i => g.ocoords.getD i (0, 0)

/-- The `nodes` function contains no raise statement and every step is
total (an empty graph yields empty arrays throughout); the Except wrapper
records that the computation returns successfully. -/
def nodesRun (g : SkelGraph) : Except PyError (List Point) :=
  Except.ok (nodes g)

/-! ## warp (roidetect.py lines 17-58)

Marker detection (cv2.aruco.detectMarkers) is external; its output — one
(id, corner list) pair per detected marker — is the embedding's input.
The source computes each marker's centroid, sorts the (id, centroid)
pairs by id, and hands the sorted centroids straight to
cv2.findHomography with no count check of its own. -/

/-- np.average over the corners followed by astype(int); the truncation
toward zero of astype matches Int division on the nonnegative image
coordinates involved. -/
def centroid4 (corners : List Point) : Point :=
  let s := corners.foldl (fun a p => (a.1 + p.1, a.2 + p.2)) ((0 : Int), (0 : Int))
  (s.1 / (corners.length : Int), s.2 / (corners.length : Int))

/-- Modelled behaviour of cv2.findHomography (external library): it
requires two equal-length arrays of at least 4 point correspondences and
otherwise throws cv2.error; the solved matrix itself is not needed by any
claim and is not modelled. -/
def findHomographyRun (src dst : List Point) : Except PyError Unit :=
  if src.length < 4 ∨ src.length ≠ dst.length then Except.error PyError.cvError
  else Except.ok ()

/-- roidetect.py lines 17-58.  `coord1` is the canonical marker-center
table, `dets` the detected markers.  On success the value is the sorted
detected-centroid list `coord2` (the data warp derives before calling the
solver).  When no marker at all is detected, aruco.detectMarkers returns
ids = None, and line 45 (`flat_ids = [item for sublist in ids ...]`)
raises TypeError by iterating over None — before cv2.findHomography is
ever reached; that path is the isEmpty branch below. -/
def warp (coord1 : List Point) (dets : List (Nat × List Point)) :
    Except PyError (List Point) :=
  if dets.isEmpty then Except.error PyError.typeError
  else
    let avg := dets.map fun d => centroid4 d.2
    let flat_ids := dets.map Prod.fst
    let pair := List.insertionSort (fun a b => a.1 ≤ b.1) (flat_ids.zip avg)
    let coord2 := pair.map Prod.snd
    (findHomographyRun coord2 coord1).map fun _ => coord2

/-! ## vertices (roidetect.py lines 143-180)

Per junction, the source intersects a radius-40 circle with the contour
image, clusters the intersection pixels with KMeans(n_clusters=6), and
takes the integer cluster centroids.  Circle drawing, intersection and
k-means are external (cv2 / sklearn); the embedding's input is the list
of the 6 cluster centroids.  The remaining steps — convex hull, rotation
to the longest edge, label-dependent chirality roll — are embedded. -/

def cross (o a b : Point) : Int :=
  (a.1 - o.1) * (b.2 - o.2) - (a.2 - o.2) * (b.1 - o.1)

/-- `p` lies on the closed segment from `a` to `b`: collinear and inside
the bounding box of the two endpoints. -/
def onSegment (p a b : Point) : Bool :=
  decide (cross a b p = 0) &&
  decide (min a.1 b.1 ≤ p.1) && decide (p.1 ≤ max a.1 b.1) &&
  decide (min a.2 b.2 ≤ p.2) && decide (p.2 ≤ max a.2 b.2)

/-- `p` lies in the convex hull of the three points `a b c`: for a
nondegenerate triangle, the three cross products have one sign; for a
collinear (degenerate) triple, the hull is a segment and membership is a
segment test. -/
def inTriangle (p a b c : Point) : Bool :=
  if cross a b c = 0 then
    onSegment p a b || onSegment p b c || onSegment p a c
  else
    (decide (0 ≤ cross a b p) && decide (0 ≤ cross b c p) && decide (0 ≤ cross c a p)) ||
    (decide (cross a b p ≤ 0) && decide (cross b c p ≤ 0) && decide (cross c a p ≤ 0))

/-- `p` is contained in the convex hull of the other input points (by
Caratheodory in the plane: in some triangle of three of them). -/
def interiorOf (pts : List Point) (p : Point) : Bool :=
  let others := pts.filter fun q => q != p
  others.any fun a => others.any fun b => others.any fun c => inTriangle p a b c

/-- Modelled behaviour of cv2.convexHull (external library): the hull
vertices are exactly the input points not contained in the hull of the
remaining points; interior points are dropped.  The particular cyclic
order cv2 emits is not modelled — downstream facts proved here hold for
every vertex order. -/
def convexHullModel (pts : List Point) : List Point :=
  pts.filter fun p => ! interiorOf pts p

/-- Squared lengths of the polygon edges, wrapping around
(np.diff with append=poly[0:1], lines 170-171). -/
def edgeLens (poly : List Point) : List Nat :=
  List.zipWith sqdist poly (poly.rotate 1)

def maxNat (l : List Nat) : Nat := l.foldr max 0

/-- np.argmax: index of the first occurrence of the maximum. -/
def argmaxIdx (l : List Nat) : Nat := l.indexOf (maxNat l)

/-- roidetect.py lines 169-173: np.roll(poly, -argmax(segdists)) starts
the vertex sequence at the first vertex of the (first) longest edge. -/
def normalizeStart (poly : List Point) : List Point :=
  poly.rotate (argmaxIdx (edgeLens poly))

/-- The hardcoded label set of line 176. -/
def chiralityLabels : List Nat :=
  [5, 3, 0, 2, 6, 50, 32, 20, 212, 211, 60, 41, 42, 121, 122, 111, 112]

/-- np.roll(roll, 2): rotate the sequence right by two positions. -/
def npRollTwo (poly : List Point) : List Point :=
  poly.rotate (poly.length - 2 % poly.length)

/-- The per-junction body of `vertices` after the external clustering:
convex hull of the cluster centroids, longest-edge normalization, then
the chirality roll for the hardcoded labels. -/
def verticesOne (label : Nat) (clusterCenters : List Point) : List Point :=
  let roll := normalizeStart (convexHullModel clusterCenters)
  if label ∈ chiralityLabels then npRollTwo roll else roll

/-- roidetect.py lines 143-180: one polygon per junction, the i-th using
the external label Dict[i]. -/
def vertices (clusterCentersList : List (List Point)) (Dict : Nat → Nat) :
    List (List Point) :=
  (List.range clusterCentersList.length).map fun i =>
    verticesOne (Dict i) (clusterCentersList.getD i [])

/-! ## bridgedetect.py (legacy pipeline) -/

/-- bridgedetect.py lines 52-60: smallest straight bounding rectangle of
a polygon, emitted as [width, height, left x, top y].  Python's min()
would raise on an empty polygon; that case is unreached under the
nonemptiness hypothesis of the theorem below. -/
def convert_polygon_to_roi : List Point → List Int
  | [] => []
  | p :: rest =>
    [rest.foldl (fun m q => max m q.1) p.1 - rest.foldl (fun m q => min m q.1) p.1,
     rest.foldl (fun m q => max m q.2) p.2 - rest.foldl (fun m q => min m q.2) p.2,
     rest.foldl (fun m q => min m q.1) p.1,
     rest.foldl (fun m q => min m q.2) p.2]

/-- The Python format string `%d,%d,%d,%d` applied to a quadruple. -/
def fmtQuad : List Int → String
  | [a, b, c, d] =>
    toString a ++ "," ++ toString b ++ "," ++ toString c ++ "," ++ toString d
  | _ => ""

/-- bridgedetect.py lines 62-69: the single line written per video.
os.path.abspath is external; the absolute video path is taken as the
input string. -/
def save_rois (absVideoPath : String) (rois : List (List Int)) : String :=
  absVideoPath ++ "\t" ++ String.intercalate "\t" (rois.map fmtQuad) ++ "\n"

/-- Names bound at module level in bridgedetect.py: its imports and its
defined functions, read off the source file. -/
def bridgedetect_globals : List String :=
  ["cv2", "np", "os", "itertools", "argparse", "constants",
   "find_red", "smooth_regions", "find_polygons", "convert_polygon_to_roi",
   "save_rois", "main"]

/-- The Python builtins referenced near line 105 of bridgedetect.py. -/
def py_builtins : List String :=
  ["list", "map", "range", "open", "len", "min", "max", "zip", "print",
   "sorted", "tuple", "abs"]

/-- CPython name resolution for a global used inside `main`: module
globals, then builtins. -/
def resolves (n : String) : Bool :=
  bridgedetect_globals.contains n || py_builtins.contains n

/-- bridgedetect.py line 105:
`rois = list(map(get_roi_from_rect_pair, pair_rects(find_rects(mask))))`.
Every name of the statement must resolve before any call happens; the
mask value itself is never consulted during name resolution.  The ok
branch is unreachable (its placeholder value is arbitrary). -/
def detect_rois_stmt : Except PyError (List (List Int)) :=
  if resolves "list" && resolves "map" && resolves "get_roi_from_rect_pair" &&
      resolves "pair_rects" && resolves "find_rects" then
    Except.ok []
  else
    Except.error PyError.nameError

/-- bridgedetect.py lines 105-106: the tail of `main` after the mask is
built — compute the ROIs, then write them with save_rois. -/
def main_tail (videoPath : String) : Except PyError String :=
  detect_rois_stmt.bind fun rois => Except.ok (save_rois videoPath rois)

/-! ## Concrete inputs used by witnesses and counterexamples -/

/-- Six cluster centroids in strictly convex position (a slightly
perturbed regular hexagon of circumradius about 80). -/
def hexCenters : List Point :=
  [(80, 0), (40, 70), (-41, 69), (-80, -1), (-40, -71), (41, -69)]

/-- A skeleton graph with one branch node (degree 3) and three tips. -/
def gEx : SkelGraph :=
  ⟨[[1, 2, 3], [0], [0], [0]], [(10, 20), (0, 1), (2, 3), (4, 5)]⟩

def coord1Ex : List Point := [(0, 0), (100, 0), (0, 100), (100, 100)]

/-- Three detected markers (ids 1, 2, 3), each with four corners. -/
def dets3Ex : List (Nat × List Point) :=
  [(1, [(0, 0), (2, 0), (2, 2), (0, 2)]),
   (2, [(10, 0), (12, 0), (12, 2), (10, 2)]),
   (3, [(0, 10), (2, 10), (2, 12), (0, 12)])]

def polysEx : List (List Point) :=
  [[(0, 0), (4, 2)], [(1, 1), (5, 3), (2, 7)]]

/-! ## Theorems about `centers` -/

theorem selAux_of_no_improvement (r : Point) :
    ∀ (ps : List Point) (m : Nat) (best : Option Point),
      (∀ p ∈ ps, ¬ sqdist r p < m) → selAux r ps m best = best := by
  intro ps
  induction ps with
  | nil => intro m best _; rfl
  | cons p rest ih =>
    intro m best h
    have hp : ¬ sqdist r p < m := h p (List.mem_cons_self p rest)
    simp only [selAux, if_neg hp]
    exact ih m best fun q hq => h q (List.mem_cons_of_mem p hq)

theorem selAux_eq_some (r : Point) :
    ∀ (ps : List Point) (m : Nat) (best : Option Point) (q : Point),
      selAux r ps m best = some q →
      (best = some q ∧ ∀ p ∈ ps, ¬ sqdist r p < m) ∨
      (q ∈ ps ∧ sqdist r q < m ∧ ∀ p ∈ ps, sqdist r q ≤ sqdist r p) := by
  intro ps
  induction ps with
  | nil => intro m best q h; exact Or.inl ⟨h, by simp⟩
  | cons p rest ih =>
    intro m best q h
    by_cases hp : sqdist r p < m
    · simp only [selAux, if_pos hp] at h
      rcases ih (sqdist r p) (some p) q h with ⟨hbq, hall⟩ | ⟨hmem, hlt, hmin⟩
      · refine Or.inr ⟨?_, ?_, ?_⟩
        · cases hbq; exact List.mem_cons_self p rest
        · cases hbq; exact hp
        · cases hbq
          intro x hx
          rcases List.mem_cons.mp hx with hx | hx
          · subst hx; exact le_refl _
          · exact le_of_not_lt (hall x hx)
      · refine Or.inr ⟨List.mem_cons_of_mem p hmem, lt_trans hlt hp, ?_⟩
        intro x hx
        rcases List.mem_cons.mp hx with hx | hx
        · subst hx; exact le_of_lt hlt
        · exact hmin x hx
    · simp only [selAux, if_neg hp] at h
      rcases ih m best q h with ⟨hbq, hall⟩ | ⟨hmem, hlt, hmin⟩
      · refine Or.inl ⟨hbq, ?_⟩
        intro x hx
        rcases List.mem_cons.mp hx with hx | hx
        · subst hx; exact hp
        · exact hall x hx
      · refine Or.inr ⟨List.mem_cons_of_mem p hmem, hlt, ?_⟩
        intro x hx
        rcases List.mem_cons.mp hx with hx | hx
        · subst hx
          exact le_of_lt (lt_of_lt_of_le hlt (le_of_not_lt hp))
        · exact hmin x hx

theorem selectClosest_spec (r q : Point) (ps : List Point)
    (h : selectClosest r ps = some q) :
    q ∈ ps ∧ sqdist r q < 100000000 ∧ ∀ p ∈ ps, sqdist r q ≤ sqdist r p := by
  rcases selAux_eq_some r ps 100000000 none q h with ⟨hbq, _⟩ | hgood
  · exact absurd hbq (by simp)
  · exact hgood

theorem selectClosest_none (r : Point) (ps : List Point)
    (h : ∀ p ∈ ps, 100000000 ≤ sqdist r p) : selectClosest r ps = none :=
  selAux_of_no_improvement r ps 100000000 none fun p hp => not_lt.mpr (h p hp)

theorem selAux_some_ne_none (r : Point) :
    ∀ (ps : List Point) (m : Nat) (b : Point),
      ∃ x, selAux r ps m (some b) = some x := by
  intro ps
  induction ps with
  | nil => intro m b; exact ⟨b, rfl⟩
  | cons p rest ih =>
    intro m b
    by_cases hp : sqdist r p < m
    · simp only [selAux, if_pos hp]; exact ih (sqdist r p) p
    · simp only [selAux, if_neg hp]; exact ih m b

theorem selectClosest_isSome (r : Point) (ps : List Point)
    (h : ∃ p ∈ ps, sqdist r p < 100000000) :
    ∃ q, selectClosest r ps = some q := by
  unfold selectClosest
  rcases h with ⟨p, hp, hlt⟩
  revert hlt
  generalize 100000000 = m
  intro hlt
  induction ps generalizing m with
  | nil => exact absurd hp (List.not_mem_nil p)
  | cons x rest ih =>
    by_cases hx : sqdist r x < m
    · simp only [selAux, if_pos hx]
      exact selAux_some_ne_none r rest (sqdist r x) x
    · simp only [selAux, if_neg hx]
      rcases List.mem_cons.mp hp with hp1 | hp1
      · subst hp1; exact absurd hlt hx
      · exact ih hp1 m hlt

/-- C4 (amended): when every canonical junction has some detected point at
distance strictly below 10000, `centers` returns one entry per canonical
junction, each a detected point of minimum distance to its junction (ties
broken toward the earlier detected point, duplicates allowed); and on a
concrete input two canonical junctions receive the same detected point,
since matched points are not removed from the pool. -/
theorem centers_min_matching :
    (∀ (reference ps : List Point),
        (∀ r ∈ reference, ∃ p ∈ ps, sqdist r p < 100000000) →
        (centers reference ps).length = reference.length ∧
        List.Forall₂
          (fun (r : Point) (s : Sel) =>
            ∃ q, s = Sel.pt q ∧ q ∈ ps ∧ ∀ p ∈ ps, sqdist r q ≤ sqdist r p)
          reference (centers reference ps)) ∧
    centers [((0 : Int), (0 : Int)), (2, 0)] [((1 : Int), (0 : Int)), (50, 50)] =
      [Sel.pt (1, 0), Sel.pt (1, 0)] := by
  constructor
  · intro reference ps h
    constructor
    · exact (List.length_map reference _)
    · induction reference with
      | nil => exact List.Forall₂.nil
      | cons r rest ih =>
        have hr := h r (List.mem_cons_self r rest)
        rcases selectClosest_isSome r ps hr with ⟨q, hq⟩
        have hrest := ih fun x hx => h x (List.mem_cons_of_mem r hx)
        have hhead : centers (r :: rest) ps =
            Sel.pt q :: centers rest ps := by
          simp only [centers, List.map_cons, hq]
        rw [hhead]
        rcases selectClosest_spec r q ps hq with ⟨hmem, _, hmin⟩
        exact List.Forall₂.cons ⟨q, rfl, hmem, hmin⟩ hrest
  · decide

theorem centers_min_matching_applied :
    (centers [((0 : Int), (0 : Int))] [((3 : Int), (4 : Int))]).length =
      ([((0 : Int), (0 : Int))] : List Point).length ∧
    List.Forall₂
      (fun (r : Point) (s : Sel) =>
        ∃ q, s = Sel.pt q ∧ q ∈ ([((3 : Int), (4 : Int))] : List Point) ∧
          ∀ p ∈ ([((3 : Int), (4 : Int))] : List Point), sqdist r q ≤ sqdist r p)
      [((0 : Int), (0 : Int))] (centers [((0 : Int), (0 : Int))] [((3 : Int), (4 : Int))]) :=
  centers_min_matching.1 [(0, 0)] [(3, 4)] (by decide)

/-- C4, as stated, is false: on the nonempty inputs below the single
canonical junction has no detected point within distance 10000, so the
appended entry is the numpy-newaxis value `ps[None]` (the whole detected
array), which is not a detected point at all. -/
theorem centers_cx :
    centers [((0 : Int), (0 : Int))] [((30000 : Int), (0 : Int))] =
      [Sel.whole [((30000 : Int), (0 : Int))]] ∧
    Sel.whole [((30000 : Int), (0 : Int))] ∉
      ([((30000 : Int), (0 : Int))] : List Point).map Sel.pt := by
  decide

/-- C9 (amended): a detected point at squared distance at least 10^8
(distance at least 10000) is never selected; when every detected point is
that far from the i-th canonical junction the selected index stays None,
but instead of raising, the code appends `ps[None]` — numpy newaxis
indexing, which is the whole detected array with a new leading axis — and
`centers` returns normally. -/
theorem centers_threshold :
    (∀ (r q : Point) (ps : List Point),
        selectClosest r ps = some q → sqdist r q < 100000000) ∧
    (∀ (reference ps : List Point) (i : Nat), i < reference.length →
        (∀ p ∈ ps, 100000000 ≤ sqdist (reference.getD i (0, 0)) p) →
        (centers reference ps).get? i = some (Sel.whole ps)) := by
  constructor
  · intro r q ps h
    exact (selectClosest_spec r q ps h).2.1
  · intro reference ps i hi h
    have hnone : selectClosest (reference.getD i (0, 0)) ps = none :=
      selectClosest_none _ ps h
    have hget : reference.get? i = some (reference.getD i (0, 0)) := by
      rw [List.getD_eq_getElem?_getD, List.get?_eq_getElem?]
      rcases List.getElem?_eq_getElem hi with h2
      rw [h2]
      rfl
    simp only [centers, List.get?_map, hget, Option.map_some', hnone]

theorem centers_threshold_applied :
    sqdist ((0 : Int), (0 : Int)) ((1 : Int), (2 : Int)) < 100000000 ∧
    (centers [((0 : Int), (0 : Int))] [((10000 : Int), (0 : Int))]).get? 0 =
      some (Sel.whole [((10000 : Int), (0 : Int))]) :=
  ⟨centers_threshold.1 (0, 0) (1, 2) [(1, 2)] (by decide),
   centers_threshold.2 [(0, 0)] [(10000, 0)] 0 (by decide) (by decide)⟩

/-- C9, as stated, says the operation raises an exception when every
detected point is at distance 10000 or more; on the concrete input below
it instead returns normally, the unmatched entry being the whole detected
array (numpy newaxis indexing `ps[None]`). -/
theorem centers_threshold_cx :
    centers [((0 : Int), (0 : Int))] [((20000 : Int), (0 : Int))] =
      [Sel.whole [((20000 : Int), (0 : Int))]] := by
  decide

/-! ## Theorems about `nodes` -/

theorem foldl_remove_mem (cond : Nat → Prop) [DecidablePred cond] :
    ∀ (idxs ns : List Nat) (j : Nat),
      (j ∈ idxs.foldl
          (fun ns i => if cond i then ns.filter (fun x => x != i) else ns) ns) ↔
      (j ∈ ns ∧ ∀ i ∈ idxs, cond i → j ≠ i) := by
  intro idxs
  induction idxs with
  | nil => intro ns j; simp
  | cons i rest ih =>
    intro ns j
    rw [List.foldl_cons]
    by_cases hc : cond i
    · rw [if_pos hc, ih]
      constructor
      · rintro ⟨hmem, hrest⟩
        rw [List.mem_filter] at hmem
        refine ⟨hmem.1, ?_⟩
        intro x hx hcx
        rcases List.mem_cons.mp hx with hx | hx
        · subst hx; exact bne_iff_ne.mp hmem.2
        · exact hrest x hx hcx
      · rintro ⟨hmem, hall⟩
        refine ⟨List.mem_filter.mpr ⟨hmem, ?_⟩, ?_⟩
        · exact bne_iff_ne.mpr (hall i (List.mem_cons_self i rest) hc)
        · intro x hx hcx; exact hall x (List.mem_cons_of_mem i hx) hcx
    · rw [if_neg hc, ih]
      constructor
      · rintro ⟨hmem, hrest⟩
        refine ⟨hmem, ?_⟩
        intro x hx hcx
        rcases List.mem_cons.mp hx with hx | hx
        · subst hx; exact absurd hcx hc
        · exact hrest x hx hcx
      · rintro ⟨hmem, hall⟩
        exact ⟨hmem, fun x hx hcx => hall x (List.mem_cons_of_mem i hx) hcx⟩

/-- C6: a node index survives the pruning loop exactly when its degree in
the original skeleton graph (its neighbor count) is at least 3, and every
emitted junction coordinate is the representative coordinate of such a
node; no node of degree below 3 is ever included. -/
theorem nodes_degree_ge_three (g : SkelGraph) :
    (∀ i, i ∈ nodesKept g ↔ (i < g.adj.length ∧ 3 ≤ degreeOf g i)) ∧
    (∀ c ∈ nodes g,
        ∃ i, i < g.adj.length ∧ 3 ≤ degreeOf g i ∧ c = g.ocoords.getD i (0, 0)) := by
  have hkept : ∀ i, i ∈ nodesKept g ↔ (i < g.adj.length ∧ 3 ≤ degreeOf g i) := by
    intro i
    unfold nodesKept
    rw [foldl_remove_mem (fun i => degreeOf g i < 3)]
    simp only [List.mem_range]
    constructor
    · rintro ⟨hlt, hall⟩
      refine ⟨hlt, ?_⟩
      by_contra hdeg
      exact hall i hlt (lt_of_not_ge hdeg) rfl
    · rintro ⟨hlt, hdeg⟩
      refine ⟨hlt, ?_⟩
      intro x _ hx hji
      subst hji
      exact absurd hdeg (not_le.mpr hx)
  refine ⟨hkept, ?_⟩
  intro c hc
  unfold nodes at hc
  rcases List.mem_map.mp hc with ⟨i, hi, hci⟩
  rcases (hkept i).mp hi with ⟨hlt, hdeg⟩
  exact ⟨i, hlt, hdeg, hci.symm⟩

theorem nodes_degree_ge_three_applied :
    ∃ i, i < gEx.adj.length ∧ 3 ≤ degreeOf gEx i ∧
      ((10 : Int), (20 : Int)) = gEx.ocoords.getD i (0, 0) :=
  (nodes_degree_ge_three gEx).2 (10, 20) (by decide)

/-- C2 (amended): on an empty skeleton graph — the graph a completely
black mask produces, since its skeleton has no pixels — `nodes` returns
an empty junction array and raises nothing: the source defines no
TopologyError (nor any exception class) and contains no raise statement,
and every operation on the empty graph is total. -/
theorem nodes_empty_graph (g : SkelGraph) (h : g.adj = []) :
    nodesRun g = Except.ok [] := by
  unfold nodesRun nodes nodesKept
  rw [h]
  rfl

theorem nodes_empty_graph_applied :
    nodesRun ⟨[], [((3 : Int), (4 : Int))]⟩ = Except.ok [] :=
  nodes_empty_graph ⟨[], [(3, 4)]⟩ rfl

/-- C2, as stated, says a completely black mask makes the extraction
raise TopologyError rather than return an empty success; on the empty
graph such a mask produces, the embedded `nodes` instead returns the
empty list successfully, and in particular not a TopologyError. -/
theorem nodes_empty_cx :
    nodesRun ⟨[], []⟩ = Except.ok [] ∧
    nodesRun ⟨[], []⟩ ≠ Except.error PyError.topologyError :=
  ⟨rfl, fun h => Except.noConfusion h⟩

/-! ## Theorems about `warp` -/

/-- C3 (amended): `warp` performs no marker-count validation of its own.
With zero detected markers it raises TypeError at the ids = None
iteration of line 45, before the homography solver is reached; with one
to three markers it assembles the sorted centroid list and calls the
solver, whose own precondition then fails with a library error
(cv2.error).  In neither case is a RegistrationError raised — no such
class exists anywhere in the source. -/
theorem warp_few_markers (coord1 : List Point) (dets : List (Nat × List Point))
    (h : dets.length < 4) :
    warp coord1 dets =
      Except.error (if dets.isEmpty then PyError.typeError else PyError.cvError) ∧
    warp coord1 dets ≠ Except.error PyError.registrationError := by
  have heq : warp coord1 dets =
      Except.error (if dets.isEmpty then PyError.typeError else PyError.cvError) := by
    cases dets with
    | nil => rfl
    | cons d rest =>
      have hlen : (List.insertionSort (fun a b => a.1 ≤ b.1)
          (((d :: rest).map Prod.fst).zip
            ((d :: rest).map fun x => centroid4 x.2))).length = (d :: rest).length := by
        rw [List.length_insertionSort, List.length_zip, List.length_map, List.length_map,
          Nat.min_self]
      have hc2 : ((List.insertionSort (fun a b => a.1 ≤ b.1)
          (((d :: rest).map Prod.fst).zip
            ((d :: rest).map fun x => centroid4 x.2))).map Prod.snd).length
            = (d :: rest).length := by
        rw [List.length_map, hlen]
      simp only [warp, findHomographyRun, List.isEmpty_cons, Bool.false_eq_true,
        if_false]
      rw [if_pos (Or.inl (by rw [hc2]; exact h))]
      rfl
  refine ⟨heq, ?_⟩
  rw [heq]
  intro hc
  have he := Except.error.inj hc
  by_cases hd : dets.isEmpty = true
  · rw [if_pos hd] at he; exact PyError.noConfusion he
  · rw [if_neg hd] at he; exact PyError.noConfusion he

theorem warp_few_markers_applied :
    (warp coord1Ex dets3Ex =
       Except.error (if dets3Ex.isEmpty then PyError.typeError else PyError.cvError) ∧
     warp coord1Ex dets3Ex ≠ Except.error PyError.registrationError) ∧
    (warp coord1Ex [] =
       Except.error
         (if ([] : List (Nat × List Point)).isEmpty then PyError.typeError
          else PyError.cvError) ∧
     warp coord1Ex [] ≠ Except.error PyError.registrationError) :=
  ⟨warp_few_markers coord1Ex dets3Ex (by decide),
   warp_few_markers coord1Ex [] (by decide)⟩

/-- C3, as stated, says a frame with only 3 detected markers raises
RegistrationError; on the concrete 3-marker input the embedded `warp`
instead propagates the homography solver's cv2.error, which is not a
RegistrationError. -/
theorem warp_cx :
    warp coord1Ex dets3Ex = Except.error PyError.cvError ∧
    PyError.cvError ≠ PyError.registrationError := by
  constructor
  · rfl
  · decide

/-! ## Theorems about bridgedetect.py -/

/-- C10: `find_rects`, `pair_rects` and `get_roi_from_rect_pair` are
bound nowhere in bridgedetect.py (not among its module globals, not
builtins), so line 105 of `main` fails name resolution with NameError on
every invocation that reaches it, and the subsequent save_rois write
never executes: `main` produces no output for any input. -/
theorem main_never_writes :
    (∀ videoPath : String, main_tail videoPath = Except.error PyError.nameError) ∧
    detect_rois_stmt = Except.error PyError.nameError := by
  constructor
  · intro videoPath; rfl
  · rfl

/-! ## Theorems about bridgedetect's ROI serialization -/

theorem foldlMin_le_init (f : Point → Int) :
    ∀ (l : List Point) (a : Int), l.foldl (fun m q => min m (f q)) a ≤ a := by
  intro l
  induction l with
  | nil => intro a; exact le_refl a
  | cons q t ih =>
    intro a
    exact le_trans (ih (min a (f q))) (min_le_left a (f q))

theorem foldlMin_le_mem (f : Point → Int) :
    ∀ (l : List Point) (a : Int) (x : Point), x ∈ l →
      l.foldl (fun m q => min m (f q)) a ≤ f x := by
  intro l
  induction l with
  | nil => intro a x hx; exact absurd hx (List.not_mem_nil x)
  | cons q t ih =>
    intro a x hx
    rcases List.mem_cons.mp hx with hx | hx
    · subst hx
      exact le_trans (foldlMin_le_init f t (min a (f x))) (min_le_right a (f x))
    · exact ih (min a (f q)) x hx

theorem foldlMin_attained (f : Point → Int) :
    ∀ (l : List Point) (a : Int),
      l.foldl (fun m q => min m (f q)) a = a ∨
      ∃ q ∈ l, l.foldl (fun m q => min m (f q)) a = f q := by
  intro l
  induction l with
  | nil => intro a; exact Or.inl rfl
  | cons q t ih =>
    intro a
    rcases ih (min a (f q)) with h | ⟨x, hx, hfx⟩
    · rcases min_choice a (f q) with hm | hm
      · exact Or.inl (by rw [List.foldl_cons, h, hm])
      · exact Or.inr ⟨q, List.mem_cons_self q t, by rw [List.foldl_cons, h, hm]⟩
    · exact Or.inr ⟨x, List.mem_cons_of_mem q hx, by rw [List.foldl_cons, hfx]⟩

theorem init_le_foldlMax (f : Point → Int) :
    ∀ (l : List Point) (a : Int), a ≤ l.foldl (fun m q => max m (f q)) a := by
  intro l
  induction l with
  | nil => intro a; exact le_refl a
  | cons q t ih =>
    intro a
    exact le_trans (le_max_left a (f q)) (ih (max a (f q)))

theorem mem_le_foldlMax (f : Point → Int) :
    ∀ (l : List Point) (a : Int) (x : Point), x ∈ l →
      f x ≤ l.foldl (fun m q => max m (f q)) a := by
  intro l
  induction l with
  | nil => intro a x hx; exact absurd hx (List.not_mem_nil x)
  | cons q t ih =>
    intro a x hx
    rcases List.mem_cons.mp hx with hx | hx
    · subst hx
      exact le_trans (le_max_right a (f x)) (init_le_foldlMax f t (max a (f x)))
    · exact ih (max a (f q)) x hx

theorem foldlMax_attained (f : Point → Int) :
    ∀ (l : List Point) (a : Int),
      l.foldl (fun m q => max m (f q)) a = a ∨
      ∃ q ∈ l, l.foldl (fun m q => max m (f q)) a = f q := by
  intro l
  induction l with
  | nil => intro a; exact Or.inl rfl
  | cons q t ih =>
    intro a
    rcases ih (max a (f q)) with h | ⟨x, hx, hfx⟩
    · rcases max_choice a (f q) with hm | hm
      · exact Or.inl (by rw [List.foldl_cons, h, hm])
      · exact Or.inr ⟨q, List.mem_cons_self q t, by rw [List.foldl_cons, h, hm]⟩
    · exact Or.inr ⟨x, List.mem_cons_of_mem q hx, by rw [List.foldl_cons, hfx]⟩

/-- The bounding-box quadruple of one polygon: shape [w, h, x, y], with
x the least x-coordinate, y the least y-coordinate, x + w the greatest
x-coordinate and y + h the greatest y-coordinate of the polygon. -/
theorem convert_polygon_quad (poly : List Point) (hne : poly ≠ []) :
    ∃ w h x y, convert_polygon_to_roi poly = [w, h, x, y] ∧
      fmtQuad [w, h, x, y] =
        toString w ++ "," ++ toString h ++ "," ++ toString x ++ "," ++ toString y ∧
      (∀ q ∈ poly, x ≤ q.1 ∧ q.1 ≤ x + w ∧ y ≤ q.2 ∧ q.2 ≤ y + h) ∧
      (∃ q ∈ poly, q.1 = x) ∧ (∃ q ∈ poly, q.2 = y) ∧
      (∃ q ∈ poly, q.1 = x + w) ∧ (∃ q ∈ poly, q.2 = y + h) := by
  cases poly with
  | nil => exact absurd rfl hne
  | cons p rest =>
    refine ⟨_, _, _, _, rfl, rfl, ?_, ?_, ?_, ?_, ?_⟩
    · intro q hq
      have hxw : rest.foldl (fun m q => min m q.1) p.1 +
          (rest.foldl (fun m q => max m q.1) p.1 -
            rest.foldl (fun m q => min m q.1) p.1) =
          rest.foldl (fun m q => max m q.1) p.1 := by omega
      have hyh : rest.foldl (fun m q => min m q.2) p.2 +
          (rest.foldl (fun m q => max m q.2) p.2 -
            rest.foldl (fun m q => min m q.2) p.2) =
          rest.foldl (fun m q => max m q.2) p.2 := by omega
      rw [hxw, hyh]
      rcases List.mem_cons.mp hq with hq | hq
      · subst hq
        exact ⟨foldlMin_le_init Prod.fst rest q.1, init_le_foldlMax Prod.fst rest q.1,
          foldlMin_le_init Prod.snd rest q.2, init_le_foldlMax Prod.snd rest q.2⟩
      · exact ⟨foldlMin_le_mem Prod.fst rest p.1 q hq, mem_le_foldlMax Prod.fst rest p.1 q hq,
          foldlMin_le_mem Prod.snd rest p.2 q hq, mem_le_foldlMax Prod.snd rest p.2 q hq⟩
    · rcases foldlMin_attained Prod.fst rest p.1 with h | ⟨q, hq, hfq⟩
      · exact ⟨p, List.mem_cons_self p rest, h.symm⟩
      · exact ⟨q, List.mem_cons_of_mem p hq, hfq.symm⟩
    · rcases foldlMin_attained Prod.snd rest p.2 with h | ⟨q, hq, hfq⟩
      · exact ⟨p, List.mem_cons_self p rest, h.symm⟩
      · exact ⟨q, List.mem_cons_of_mem p hq, hfq.symm⟩
    · have hxw : rest.foldl (fun m q => min m q.1) p.1 +
          (rest.foldl (fun m q => max m q.1) p.1 -
            rest.foldl (fun m q => min m q.1) p.1) =
          rest.foldl (fun m q => max m q.1) p.1 := by omega
      rw [hxw]
      rcases foldlMax_attained Prod.fst rest p.1 with h | ⟨q, hq, hfq⟩
      · exact ⟨p, List.mem_cons_self p rest, h.symm⟩
      · exact ⟨q, List.mem_cons_of_mem p hq, hfq.symm⟩
    · have hyh : rest.foldl (fun m q => min m q.2) p.2 +
          (rest.foldl (fun m q => max m q.2) p.2 -
            rest.foldl (fun m q => min m q.2) p.2) =
          rest.foldl (fun m q => max m q.2) p.2 := by omega
      rw [hyh]
      rcases foldlMax_attained Prod.snd rest p.2 with h | ⟨q, hq, hfq⟩
      · exact ⟨p, List.mem_cons_self p rest, h.symm⟩
      · exact ⟨q, List.mem_cons_of_mem p hq, hfq.symm⟩

/-- C8: for any ROI list (from nonempty polygons) and video name, the
legacy serialization emits exactly one line — the absolute video path,
then one tab-separated quadruple per ROI, terminated by a single newline
— and each quadruple is width,height,x,y in that order: the ROI's width,
its height, its least (left) x and its least (top) y. -/
theorem save_rois_format (absVideoPath : String) (polys : List (List Point))
    (hne : ∀ poly ∈ polys, poly ≠ []) :
    save_rois absVideoPath (polys.map convert_polygon_to_roi) =
      absVideoPath ++ "\t" ++
        String.intercalate "\t"
          ((polys.map convert_polygon_to_roi).map fmtQuad) ++ "\n" ∧
    List.Forall₂
      (fun (poly : List Point) (quad : List Int) =>
        ∃ w h x y, quad = [w, h, x, y] ∧
          fmtQuad quad =
            toString w ++ "," ++ toString h ++ "," ++ toString x ++ "," ++ toString y ∧
          (∀ q ∈ poly, x ≤ q.1 ∧ q.1 ≤ x + w ∧ y ≤ q.2 ∧ q.2 ≤ y + h) ∧
          (∃ q ∈ poly, q.1 = x) ∧ (∃ q ∈ poly, q.2 = y) ∧
          (∃ q ∈ poly, q.1 = x + w) ∧ (∃ q ∈ poly, q.2 = y + h))
      polys (polys.map convert_polygon_to_roi) := by
  constructor
  · rfl
  · induction polys with
    | nil => exact List.Forall₂.nil
    | cons poly rest ih =>
      rw [List.map_cons]
      refine List.Forall₂.cons ?_ (ih fun q hq => hne q (List.mem_cons_of_mem poly hq))
      rcases convert_polygon_quad poly (hne poly (List.mem_cons_self poly rest)) with
        ⟨w, h, x, y, heq, hf, hb, h1, h2, h3, h4⟩
      exact ⟨w, h, x, y, heq, by rw [heq]; exact hf, hb, h1, h2, h3, h4⟩

theorem save_rois_format_applied :
    save_rois "/videos/a.avi" (polysEx.map convert_polygon_to_roi) =
      "/videos/a.avi" ++ "\t" ++
        String.intercalate "\t"
          ((polysEx.map convert_polygon_to_roi).map fmtQuad) ++ "\n" ∧
    List.Forall₂
      (fun (poly : List Point) (quad : List Int) =>
        ∃ w h x y, quad = [w, h, x, y] ∧
          fmtQuad quad =
            toString w ++ "," ++ toString h ++ "," ++ toString x ++ "," ++ toString y ∧
          (∀ q ∈ poly, x ≤ q.1 ∧ q.1 ≤ x + w ∧ y ≤ q.2 ∧ q.2 ≤ y + h) ∧
          (∃ q ∈ poly, q.1 = x) ∧ (∃ q ∈ poly, q.2 = y) ∧
          (∃ q ∈ poly, q.1 = x + w) ∧ (∃ q ∈ poly, q.2 = y + h))
      polysEx (polysEx.map convert_polygon_to_roi) :=
  save_rois_format "/videos/a.avi" polysEx (by decide)

/-! ## Theorems about `vertices` -/

/-- C1: formalizing a junction with at least 6 well-separated
circle-contour intersection clusters as one whose 6 k-means cluster
centroids are in strictly convex position (none lies in the hull of the
others), the per-junction vertex-extraction emits an ordered sequence of
exactly 6 vertices, whatever the junction's label. -/
theorem verticesOne_emits_six (label : Nat) (cs : List Point)
    (h6 : cs.length = 6) (hsep : ∀ p ∈ cs, interiorOf cs p = false) :
    (verticesOne label cs).length = 6 := by
  have hhull : convexHullModel cs = cs := by
    unfold convexHullModel
    apply List.filter_eq_self.mpr
    intro p hp
    rw [hsep p hp]
    rfl
  unfold verticesOne normalizeStart npRollTwo
  by_cases hl : label ∈ chiralityLabels
  · rw [if_pos hl]
    simp only [List.length_rotate, hhull, h6]
  · rw [if_neg hl]
    simp only [List.length_rotate, hhull, h6]

theorem verticesOne_emits_six_applied :
    (verticesOne 5 hexCenters).length = 6 :=
  verticesOne_emits_six 5 hexCenters (by decide) (by decide)

/-- C7: after longest-edge normalization, the vertex sequence of a
junction whose external label lies in the hardcoded chirality set is
rolled by exactly two positions (np.roll by +2: entry j comes from
normalized entry (j+4) mod 6), while a label outside the set leaves the
normalized sequence untouched. -/
theorem verticesOne_chirality (label : Nat) (cs : List Point)
    (h6 : (normalizeStart (convexHullModel cs)).length = 6) :
    (label ∈ chiralityLabels →
      ∀ j, j < 6 →
        (verticesOne label cs).get? j =
          (normalizeStart (convexHullModel cs)).get? ((j + 4) % 6)) ∧
    (label ∉ chiralityLabels →
      verticesOne label cs = normalizeStart (convexHullModel cs)) := by
  constructor
  · intro hl j hj
    unfold verticesOne
    rw [if_pos hl]
    unfold npRollTwo
    rw [h6]
    have hj6 : j < (normalizeStart (convexHullModel cs)).length := by rw [h6]; exact hj
    rw [List.get?_rotate hj6, h6]
  · intro hl
    unfold verticesOne
    rw [if_neg hl]

theorem verticesOne_chirality_applied :
    (verticesOne 5 hexCenters).get? 0 =
      (normalizeStart (convexHullModel hexCenters)).get? ((0 + 4) % 6) ∧
    verticesOne 7 hexCenters = normalizeStart (convexHullModel hexCenters) :=
  ⟨(verticesOne_chirality 5 hexCenters (by decide)).1 (by decide) 0 (by decide),
   (verticesOne_chirality 7 hexCenters (by decide)).2 (by decide)⟩

/-! ## Idempotence of the longest-edge normalization (C5) -/

theorem maxNat_cons (a : Nat) (t : List Nat) : maxNat (a :: t) = max a (maxNat t) := rfl

theorem le_maxNat : ∀ (l : List Nat), ∀ x ∈ l, x ≤ maxNat l := by
  intro l
  induction l with
  | nil => intro x hx; exact absurd hx (List.not_mem_nil x)
  | cons a t ih =>
    intro x hx
    rw [maxNat_cons]
    rcases List.mem_cons.mp hx with hx | hx
    · subst hx; exact le_max_left x (maxNat t)
    · exact le_trans (ih x hx) (le_max_right a (maxNat t))

theorem maxNat_mem : ∀ (l : List Nat), l ≠ [] → maxNat l ∈ l := by
  intro l
  induction l with
  | nil => intro h; exact absurd rfl h
  | cons a t ih =>
    intro _
    rw [maxNat_cons]
    cases t with
    | nil => simp [maxNat]
    | cons b u =>
      rcases max_choice a (maxNat (b :: u)) with hm | hm
      · rw [hm]; exact List.mem_cons_self a (b :: u)
      · rw [hm]
        exact List.mem_cons_of_mem a (ih (List.cons_ne_nil b u))

theorem maxNat_rotate (l : List Nat) (k : Nat) : maxNat (l.rotate k) = maxNat l := by
  rcases eq_or_ne l [] with h | h
  · subst h
    rw [List.rotate_eq_nil_iff.mpr rfl]
  · have hrot : l.rotate k ≠ [] := by
      intro hr
      exact h (List.rotate_eq_nil_iff.mp hr)
    apply le_antisymm
    · exact le_maxNat l _ (List.mem_rotate.mp (maxNat_mem (l.rotate k) hrot))
    · exact le_maxNat (l.rotate k) _ (List.mem_rotate.mpr (maxNat_mem l h))

theorem argmaxIdx_def (l : List Nat) :
    argmaxIdx l = l.findIdx (fun x => x == maxNat l) := rfl

theorem findIdx_beq_lt_of_mem {l : List Nat} {a : Nat} (h : a ∈ l) :
    l.findIdx (fun x => x == a) < l.length := by
  induction l with
  | nil => exact absurd h (List.not_mem_nil a)
  | cons b t ih =>
    rw [List.findIdx_cons]
    by_cases hb : b = a
    · subst hb
      simp only [beq_self_eq_true, cond_true]
      exact Nat.succ_pos t.length
    · have hba : (b == a) = false := beq_eq_false_iff_ne.mpr hb
      rw [hba]
      simp only [cond_false, List.length_cons]
      have hat : a ∈ t := by
        rcases List.mem_cons.mp h with h1 | h1
        · exact absurd h1.symm hb
        · exact h1
      exact Nat.succ_lt_succ (ih hat)

theorem get?_findIdx_beq {l : List Nat} {a : Nat} (h : a ∈ l) :
    l.get? (l.findIdx (fun x => x == a)) = some a := by
  induction l with
  | nil => exact absurd h (List.not_mem_nil a)
  | cons b t ih =>
    rw [List.findIdx_cons]
    by_cases hb : b = a
    · subst hb
      simp only [beq_self_eq_true, cond_true, List.get?_cons_zero]
    · have hba : (b == a) = false := beq_eq_false_iff_ne.mpr hb
      rw [hba]
      simp only [cond_false, List.get?_cons_succ]
      have hat : a ∈ t := by
        rcases List.mem_cons.mp h with h1 | h1
        · exact absurd h1.symm hb
        · exact h1
      exact ih hat

theorem edgeLens_length (poly : List Point) : (edgeLens poly).length = poly.length := by
  unfold edgeLens
  rw [List.length_zipWith, List.length_rotate, Nat.min_self]

theorem edgeLens_rotate (poly : List Point) (k : Nat) :
    edgeLens (poly.rotate k) = (edgeLens poly).rotate k := by
  unfold edgeLens
  rw [List.zipWith_rotate_distrib sqdist poly (poly.rotate 1) k
    (List.length_rotate poly 1).symm]
  rw [List.rotate_rotate, List.rotate_rotate, Nat.add_comm]

/-- C5: the longest-edge normalization step (rotate the vertex sequence
so the first vertex of the first longest edge comes first) is idempotent:
applied to an already-normalized polygon it returns it unchanged. -/
theorem normalizeStart_idempotent (poly : List Point) :
    normalizeStart (normalizeStart poly) = normalizeStart poly := by
  rcases eq_or_ne poly [] with hp | hp
  · subst hp; rfl
  · have hLlen : (edgeLens poly).length = poly.length := edgeLens_length poly
    have hLne : edgeLens poly ≠ [] := by
      intro h
      apply hp
      have : poly.length = 0 := by rw [← hLlen, h]; rfl
      exact List.length_eq_zero.mp this
    have hMem : maxNat (edgeLens poly) ∈ edgeLens poly := maxNat_mem _ hLne
    have hilt : argmaxIdx (edgeLens poly) < (edgeLens poly).length := by
      rw [argmaxIdx_def]
      exact findIdx_beq_lt_of_mem hMem
    have hEL : edgeLens (poly.rotate (argmaxIdx (edgeLens poly))) =
        (edgeLens poly).rotate (argmaxIdx (edgeLens poly)) :=
      edgeLens_rotate poly _
    have hpos : 0 < (edgeLens poly).length := Nat.lt_of_le_of_lt (Nat.zero_le _) hilt
    have hhead : ((edgeLens poly).rotate (argmaxIdx (edgeLens poly))).get? 0 =
        some (maxNat (edgeLens poly)) := by
      rw [List.get?_rotate hpos, Nat.zero_add, Nat.mod_eq_of_lt hilt, argmaxIdx_def]
      exact get?_findIdx_beq hMem
    have hzero : argmaxIdx ((edgeLens poly).rotate (argmaxIdx (edgeLens poly))) = 0 := by
      rw [argmaxIdx_def, maxNat_rotate]
      cases hrot : (edgeLens poly).rotate (argmaxIdx (edgeLens poly)) with
      | nil =>
        rw [hrot] at hhead
        exact absurd hhead (by simp)
      | cons b t =>
        rw [hrot] at hhead
        have hb : b = maxNat (edgeLens poly) := by
          rw [List.get?_cons_zero] at hhead
          exact Option.some.inj hhead
        rw [List.findIdx_cons, hb]
        simp only [beq_self_eq_true, cond_true]
    show normalizeStart (poly.rotate (argmaxIdx (edgeLens poly))) =
      poly.rotate (argmaxIdx (edgeLens poly))
    unfold normalizeStart
    rw [hEL, hzero, List.rotate_zero]
